import Mathlib

/-
  Verification development for phonopy's src/c/anharmonic/phonoc_utils.c.

  Doubles are modelled as real numbers, flat C arrays as functions from ℕ,
  NULL-able pointers as Option, and the two external collaborators that live
  outside this file (the dynamical-matrix builder in dynmat.c and the LAPACK
  zheev wrapper) as oracle function parameters, exactly as the spec treats
  them (consumed black boxes).
-/

open scoped BigOperators

/-- The constant 2π used by get_phase_factor (M_2PI from phonoc_math.h). -/
noncomputable def M_2PI : ℝ := 2 * Real.pi

/-- The C sign expression ((w > 0) - (w < 0)) from line 282. -/
noncomputable def csign (x : ℝ) : ℝ :=
  (if 0 < x then (1 : ℝ) else 0) - (if x < 0 then (1 : ℝ) else 0)

/-- Eigenvalue-to-frequency conversion applied at lines 280-283 of get_phonons:
    sqrt(fabs(w)) * ((w > 0) - (w < 0)) * unit_conversion_factor. -/
noncomputable def freq_conversion (unit_conversion_factor lam : ℝ) : ℝ :=
  Real.sqrt |lam| * csign lam * unit_conversion_factor

/-- Hermitization step at lines 266-272 of get_phonons: entry (i,j) of the
    matrix handed to the eigensolver, built from the flat real and imaginary
    parts of the assembled dynamical matrix, with n = 3 * num_patom. -/
noncomputable def hermitized (dm_real dm_imag : ℕ → ℝ) (n i j : ℕ) : ℂ :=
  ⟨(dm_real (i * n + j) + dm_real (j * n + i)) / 2,
   (dm_imag (i * n + j) - dm_imag (j * n + i)) / 2⟩

/-- Cartesian wavevector at lines 212-226: q_cart[i] = Σ_j rl[i*3+j] * v[j]. -/
noncomputable def q_cart_of (reciprocal_lattice v : ℕ → ℝ) (i : ℕ) : ℝ :=
  ∑ j in Finset.range 3, reciprocal_lattice (i * 3 + j) * v j

/-- inv_dielectric_factor accumulation at lines 228-235 of get_phonons. -/
noncomputable def inv_dielectric_factor_of (dielectric q_cart : ℕ → ℝ) : ℝ :=
  ∑ i in Finset.range 3,
    (∑ j in Finset.range 3, dielectric (i * 3 + j) * q_cart j) * q_cart i

/-- Modelled from the spec: get_charge_sum is defined in dynmat.c, which is not
    part of this excerpt.  Per spec section 4.4 step 4 the tensor entry for
    primitive atoms (pa, pb) and Cartesian components (a, b) is
    factor * (Born[pa]^T q_cart)_a * (Born[pb]^T q_cart)_b. -/
noncomputable def get_charge_sum (num_patom : ℕ) (factor : ℝ)
    (q_cart born : ℕ → ℝ) : ℕ → ℕ → ℕ → ℕ → ℝ :=
  fun pa pb a b =>
    (num_patom : ℝ) * 0 +
    factor * (∑ c in Finset.range 3, born (pa * 9 + c * 3 + a) * q_cart c)
           * (∑ c in Finset.range 3, born (pb * 9 + c * 3 + b) * q_cart c)

/-- The charge_sum argument built by get_phonons (lines 206-248): none models
    the NULL pointer handed to the dynamical-matrix builder, some models the
    tensor built by get_charge_sum with the scaled dielectric factor. -/
noncomputable def charge_sum_opt (born : Option (ℕ → ℝ))
    (q dielectric reciprocal_lattice : ℕ → ℝ) (q_direction : Option (ℕ → ℝ))
    (nac_factor : ℝ) (num_patom num_satom : ℕ) :
    Option (ℕ → ℕ → ℕ → ℕ → ℝ) :=
  match born with
  | none => none
  | some b =>
    if (|q 0| < 1e-10 ∧ |q 1| < 1e-10 ∧ |q 2| < 1e-10) ∧ q_direction.isNone then
      none
    else
      some (get_charge_sum num_patom
        (nac_factor /
          inv_dielectric_factor_of dielectric
            (q_cart_of reciprocal_lattice (q_direction.getD q)) /
          (num_satom : ℝ) * (num_patom : ℝ))
        (q_cart_of reciprocal_lattice (q_direction.getD q)) b)

/-- Model of get_phonons (lines 173-286): builds the NAC charge-sum argument,
    obtains the raw dynamical matrix from the external builder (dynmat.c,
    consumed as an oracle), hermitizes it, hands it to the external eigensolver
    oracle zheev, applies the frequency conversion to the eigenvalue buffer,
    and returns (eigenvector buffer, frequency buffer, solver status). -/
noncomputable def get_phonons
    (zheev : (ℕ → ℂ) → ℕ → (ℕ → ℝ) × (ℕ → ℂ) × ℤ)
    (dynmat : (ℕ → ℝ) → Option (ℕ → ℕ → ℕ → ℕ → ℝ) → (ℕ → ℝ) × (ℕ → ℝ))
    (q : ℕ → ℝ) (born : Option (ℕ → ℝ))
    (dielectric reciprocal_lattice : ℕ → ℝ) (q_direction : Option (ℕ → ℝ))
    (nac_factor unit_conversion_factor : ℝ) (num_patom num_satom : ℕ) :
    (ℕ → ℂ) × (ℕ → ℝ) × ℤ :=
  let cs := charge_sum_opt born q dielectric reciprocal_lattice q_direction
              nac_factor num_patom num_satom
  let dm := dynmat q cs
  let a : ℕ → ℂ := fun k =>
    hermitized dm.1 dm.2 (num_patom * 3) (k / (num_patom * 3)) (k % (num_patom * 3))
  let z := zheev a (num_patom * 3)
  (z.2.1,
   fun i => if i < num_patom * 3 then
              freq_conversion unit_conversion_factor (z.1 i)
            else z.1 i,
   z.2.2)

/-- The caller-owned phonon cache: flat frequency buffer, flat eigenvector
    buffer, and the per-grid-point done flags. -/
structure PhononState where
  frequencies : ℕ → ℝ
  eigenvectors : ℕ → ℂ
  phonon_done : ℕ → Bool

/-- The read-only physical tables threaded through the batch entry points. -/
structure PhononInputs where
  grid_address : ℕ → ℤ
  mesh : ℕ → ℤ
  born : Option (ℕ → ℝ)
  dielectric : ℕ → ℝ
  reciprocal_lattice : ℕ → ℝ
  q_direction : Option (ℕ → ℝ)
  nac_factor : ℝ
  unit_conversion_factor : ℝ
  num_band : ℕ
  num_patom : ℕ
  num_satom : ℕ

/-- Writing one grid point's results into the caller's buffers: frequencies at
    pointer offset num_band*gp (n = 3*num_patom entries written by the solve)
    and eigenvectors at offset num_band*num_band*gp (n*n entries). -/
def write_slot (st : PhononState) (gp num_band n : ℕ) (w : ℕ → ℝ) (a : ℕ → ℂ) :
    PhononState where
  frequencies := fun k =>
    if gp * num_band ≤ k ∧ k < gp * num_band + n then
      w (k - gp * num_band)
    else st.frequencies k
  eigenvectors := fun k =>
    if gp * (num_band * num_band) ≤ k ∧ k < gp * (num_band * num_band) + n * n then
      a (k - gp * (num_band * num_band))
    else st.eigenvectors k
  phonon_done := st.phonon_done

/-- Loop body of get_undone_phonons (lines 129-170): derive the fractional q
    from the grid address, pass q_direction only when gp == 0 (NULL otherwise),
    solve, and write the results into this grid point's cache slot. -/
noncomputable def solve_one
    (zheev : (ℕ → ℂ) → ℕ → (ℕ → ℝ) × (ℕ → ℂ) × ℤ)
    (dynmat : (ℕ → ℝ) → Option (ℕ → ℕ → ℕ → ℕ → ℝ) → (ℕ → ℝ) × (ℕ → ℝ))
    (inp : PhononInputs) (st : PhononState) (gp : ℕ) : PhononState :=
  let q : ℕ → ℝ := fun j => ((inp.grid_address (gp * 3 + j) : ℝ)) / ((inp.mesh j : ℝ))
  let r := if gp = 0 then
      get_phonons zheev dynmat q inp.born inp.dielectric inp.reciprocal_lattice
        inp.q_direction inp.nac_factor inp.unit_conversion_factor
        inp.num_patom inp.num_satom
    else
      get_phonons zheev dynmat q inp.born inp.dielectric inp.reciprocal_lattice
        none inp.nac_factor inp.unit_conversion_factor
        inp.num_patom inp.num_satom
  write_slot st gp inp.num_band (inp.num_patom * 3) r.2.1 r.1

/-- Model of get_undone_phonons (lines 103-171).  The C loop is an OpenMP
    parallel-for whose iterations write disjoint cache slots; it is embedded as
    a sequential fold over the undone list. -/
noncomputable def get_undone_phonons
    (zheev : (ℕ → ℂ) → ℕ → (ℕ → ℝ) × (ℕ → ℂ) × ℤ)
    (dynmat : (ℕ → ℝ) → Option (ℕ → ℕ → ℕ → ℕ → ℝ) → (ℕ → ℝ) × (ℕ → ℝ))
    (inp : PhononInputs) (undone : List ℕ) (st : PhononState) : PhononState :=
  undone.foldl (solve_one zheev dynmat inp) st

/-- Model of collect_undone_grid_points (lines 335-353): scan the requested
    grid points in order; a point whose done flag is set is skipped, an undone
    point is appended to the undone list and its flag set immediately.
    Returns the undone list together with the updated flags. -/
def collect_undone_grid_points (phonon_done : ℕ → Bool) :
    List ℕ → List ℕ × (ℕ → Bool)
  | [] => ([], phonon_done)
  | gp :: rest =>
    if phonon_done gp then collect_undone_grid_points phonon_done rest
    else
      let r := collect_undone_grid_points (Function.update phonon_done gp true) rest
      (gp :: r.1, r.2)

/-- Model of set_phonons_at_gridpoints (lines 51-101): sequentially collect and
    mark the undone points, then fan get_phonons out over them. -/
noncomputable def set_phonons_at_gridpoints
    (zheev : (ℕ → ℂ) → ℕ → (ℕ → ℝ) × (ℕ → ℂ) × ℤ)
    (dynmat : (ℕ → ℝ) → Option (ℕ → ℕ → ℕ → ℕ → ℝ) → (ℕ → ℝ) × (ℕ → ℝ))
    (inp : PhononInputs) (grid_points : List ℕ) (st : PhononState) : PhononState :=
  let c := collect_undone_grid_points st.phonon_done grid_points
  get_undone_phonons zheev dynmat inp c.1
    { st with phonon_done := c.2 }

/-- Model of get_phase_factor (lines 288-318): multiplicity-averaged cosine and
    sine sums over the equivalent shortest vectors of the (si, pi0) pair. -/
noncomputable def get_phase_factor (q svecs_data : ℕ → ℝ) (sdims1 sdims2 : ℕ)
    (multi_data : ℕ → ℕ) (mdims1 : ℕ) (pi0 si qi : ℕ) : ℝ × ℝ :=
  ((∑ k in Finset.range (multi_data (si * mdims1 + pi0)),
      Real.cos (M_2PI * ∑ j in Finset.range 3,
        q (qi * 3 + j) *
          svecs_data (si * sdims1 * sdims2 * 3 + pi0 * sdims2 * 3 + k * 3 + j))) /
     (multi_data (si * mdims1 + pi0) : ℝ),
   (∑ k in Finset.range (multi_data (si * mdims1 + pi0)),
      Real.sin (M_2PI * ∑ j in Finset.range 3,
        q (qi * 3 + j) *
          svecs_data (si * sdims1 * sdims2 * 3 + pi0 * sdims2 * 3 + k * 3 + j))) /
     (multi_data (si * mdims1 + pi0) : ℝ))

/-- Eigensolver oracle that reports success (status 0) and echoes the matrix. -/
def zheev_ok : (ℕ → ℂ) → ℕ → (ℕ → ℝ) × (ℕ → ℂ) × ℤ :=
  fun a _ => (fun _ => 0, a, 0)

/-- Eigensolver oracle that reports non-convergence (status 1) but leaves the
    same buffer contents as zheev_ok. -/
def zheev_fail : (ℕ → ℂ) → ℕ → (ℕ → ℝ) × (ℕ → ℂ) × ℤ :=
  fun a _ => (fun _ => 0, a, 1)

/-- Trivial dynamical-matrix-builder oracle used for concrete instantiations. -/
def dynmat0 : (ℕ → ℝ) → Option (ℕ → ℕ → ℕ → ℕ → ℝ) → (ℕ → ℝ) × (ℕ → ℝ) :=
  fun _ _ => (fun _ => 0, fun _ => 0)

/-- Concrete input tables used by the closed instantiations. -/
def inp0 : PhononInputs where
  grid_address := fun _ => 0
  mesh := fun _ => 1
  born := none
  dielectric := fun _ => 0
  reciprocal_lattice := fun _ => 0
  q_direction := none
  nac_factor := 0
  unit_conversion_factor := 1
  num_band := 3
  num_patom := 1
  num_satom := 1

/-- Concrete all-zero initial cache with no point done. -/
def st0 : PhononState where
  frequencies := fun _ => 0
  eigenvectors := fun _ => 0
  phonon_done := fun _ => false

/-- Concrete fractional wavevector (1, 0, 0) used by the NAC instantiations. -/
def qx : ℕ → ℝ := fun k => if k = 0 then 1 else 0

/-- Concrete flattened identity 3x3 matrix used as a reciprocal lattice. -/
def rl_id : ℕ → ℝ := fun k => if k = 0 ∨ k = 4 ∨ k = 8 then 1 else 0

/-- Concrete all-zero flattened Born-charge tensor. -/
def born0 : ℕ → ℝ := fun _ => 0

/- ------------------------------------------------------------------ -/
/- Helper lemmas (shared)                                              -/
/- ------------------------------------------------------------------ -/

theorem complex_div_two_re (z : ℂ) : (z / 2).re = z.re / 2 := by
  have h : ((2 : ℝ) : ℂ) = (2 : ℂ) := by norm_num
  rw [← h, Complex.div_ofReal_re]

theorem complex_div_two_im (z : ℂ) : (z / 2).im = z.im / 2 := by
  have h : ((2 : ℝ) : ℂ) = (2 : ℂ) := by norm_num
  rw [← h, Complex.div_ofReal_im]

theorem csign_eq_sign (x : ℝ) : csign x = Real.sign x := by
  unfold csign
  rcases lt_trichotomy x 0 with h | h | h
  · rw [Real.sign_of_neg h, if_neg (by linarith : ¬ 0 < x), if_pos h]; norm_num
  · subst h; simp
  · rw [Real.sign_of_pos h, if_pos h, if_neg (by linarith : ¬ x < 0)]; norm_num

theorem csign_mul_sqrt_of_nonneg (x : ℝ) (hx : 0 ≤ x) :
    Real.sqrt |x| * csign x = Real.sqrt x := by
  rcases hx.eq_or_lt with h | h
  · subst h; simp [csign]
  · unfold csign
    rw [if_pos h, if_neg (by linarith), abs_of_nonneg hx]; ring

theorem csign_mul_sqrt_of_nonpos (x : ℝ) (hx : x ≤ 0) :
    Real.sqrt |x| * csign x = -Real.sqrt (-x) := by
  rcases hx.eq_or_lt with h | h
  · subst h; simp [csign]
  · unfold csign
    rw [if_neg (by linarith), if_pos h, abs_of_nonpos hx]; ring

theorem signed_sqrt_mono (x y : ℝ) (hxy : x ≤ y) :
    Real.sqrt |x| * csign x ≤ Real.sqrt |y| * csign y := by
  rcases le_or_lt 0 x with hx | hx
  · rw [csign_mul_sqrt_of_nonneg x hx, csign_mul_sqrt_of_nonneg y (hx.trans hxy)]
    exact Real.sqrt_le_sqrt hxy
  · rcases le_or_lt 0 y with hy | hy
    · rw [csign_mul_sqrt_of_nonpos x hx.le, csign_mul_sqrt_of_nonneg y hy]
      have h1 : (0:ℝ) ≤ Real.sqrt y := Real.sqrt_nonneg y
      have h2 : (0:ℝ) ≤ Real.sqrt (-x) := Real.sqrt_nonneg (-x)
      linarith
    · rw [csign_mul_sqrt_of_nonpos x hx.le, csign_mul_sqrt_of_nonpos y hy.le]
      have : Real.sqrt (-y) ≤ Real.sqrt (-x) := Real.sqrt_le_sqrt (by linarith)
      linarith

/- ------------------------------------------------------------------ -/
/- Claim C2                                                            -/
/- ------------------------------------------------------------------ -/

/-- Claim C2: Hermitization correctness.  The matrix entry handed to the
    eigensolver equals (D[i,j] + conj(D[j,i])) / 2 where D is the raw assembled
    dynamical matrix (real part dm_real, imaginary part dm_imag); its real part
    is (dm_real[i,j] + dm_real[j,i]) / 2 and its imaginary part is
    (dm_imag[i,j] - dm_imag[j,i]) / 2; and the resulting matrix equals its own
    conjugate transpose at every index pair. -/
theorem hermitization_correct (dm_real dm_imag : ℕ → ℝ) (n i j : ℕ) :
    hermitized dm_real dm_imag n i j =
      ((⟨dm_real (i * n + j), dm_imag (i * n + j)⟩ : ℂ) +
        (starRingEnd ℂ) (⟨dm_real (j * n + i), dm_imag (j * n + i)⟩ : ℂ)) / 2 ∧
    (hermitized dm_real dm_imag n i j).re =
      (dm_real (i * n + j) + dm_real (j * n + i)) / 2 ∧
    (hermitized dm_real dm_imag n i j).im =
      (dm_imag (i * n + j) - dm_imag (j * n + i)) / 2 ∧
    hermitized dm_real dm_imag n i j =
      (starRingEnd ℂ) (hermitized dm_real dm_imag n j i) := by
  refine ⟨?_, rfl, rfl, ?_⟩
  · apply Complex.ext
    · rw [complex_div_two_re]
      simp [hermitized]
    · rw [complex_div_two_im]
      simp [hermitized]
      ring
  · apply Complex.ext
    · simp [hermitized]; ring
    · simp [hermitized]; ring

/- ------------------------------------------------------------------ -/
/- Claim C3                                                            -/
/- ------------------------------------------------------------------ -/

/-- Claim C3: sign-preserving frequency conversion.  The conversion applied to
    each eigenvalue equals sign(λ)·sqrt(|λ|)·unit_conversion_factor with
    sign(0) = 0 giving frequency 0; a negative eigenvalue yields a strictly
    negative frequency; the conversion is monotone, so an ascending eigenvalue
    list maps to an ascending frequency list; and get_phonons applies exactly
    this conversion to every entry of the eigensolver's eigenvalue buffer. -/
theorem freq_conversion_sign_preserving (ucf : ℝ) (hucf : 0 < ucf) :
    (∀ lam, freq_conversion ucf lam = Real.sign lam * Real.sqrt |lam| * ucf) ∧
    freq_conversion ucf 0 = 0 ∧
    (∀ lam, lam < 0 → freq_conversion ucf lam < 0) ∧
    Monotone (freq_conversion ucf) ∧
    (∀ ws : List ℝ, ws.Sorted (· ≤ ·) →
      (ws.map (freq_conversion ucf)).Sorted (· ≤ ·)) := by
  have hmono : Monotone (freq_conversion ucf) := by
    intro x y hxy
    unfold freq_conversion
    exact mul_le_mul_of_nonneg_right (signed_sqrt_mono x y hxy) hucf.le
  refine ⟨?_, ?_, ?_, hmono, ?_⟩
  · intro lam
    unfold freq_conversion
    rw [csign_eq_sign]; ring
  · simp [freq_conversion, csign]
  · intro lam hlam
    unfold freq_conversion
    rw [csign_mul_sqrt_of_nonpos lam hlam.le]
    have h1 : 0 < Real.sqrt (-lam) := Real.sqrt_pos.mpr (by linarith)
    have := mul_pos h1 hucf
    linarith
  · intro ws hws
    exact List.Pairwise.map (freq_conversion ucf)
      (fun a b hab => hmono hab) hws

/-- Claim C3 witness: instantiation at unit conversion factor 1 and the
    eigenvalue -4, confirming a negative eigenvalue maps to a negative
    frequency. -/
theorem freq_conversion_sign_preserving_witness :
    0 < (1 : ℝ) ∧ freq_conversion 1 (-4) < 0 :=
  ⟨by norm_num,
   (freq_conversion_sign_preserving 1 (by norm_num)).2.2.1 (-4) (by norm_num)⟩

/- ------------------------------------------------------------------ -/
/- Claim C8                                                            -/
/- ------------------------------------------------------------------ -/

theorem avg_trig_eq_avg_exp (θ : ℕ → ℝ) (m : ℕ) :
    (⟨(∑ k in Finset.range m, Real.cos (θ k)) / m,
      (∑ k in Finset.range m, Real.sin (θ k)) / m⟩ : ℂ) =
    (∑ k in Finset.range m, Complex.exp ((θ k : ℝ) * Complex.I)) / (m : ℂ) := by
  apply Complex.ext
  · rw [← Complex.ofReal_natCast, Complex.div_ofReal_re, Complex.re_sum]
    simp [Complex.exp_ofReal_mul_I_re]
  · rw [← Complex.ofReal_natCast, Complex.div_ofReal_im, Complex.im_sum]
    simp [Complex.exp_ofReal_mul_I_im]

theorem avg_exp_abs_le_one (θ : ℕ → ℝ) (m : ℕ) (hm : 1 ≤ m) :
    Complex.abs ((∑ k in Finset.range m, Complex.exp ((θ k : ℝ) * Complex.I)) / (m : ℂ)) ≤ 1 := by
  rw [map_div₀]
  have h1 : Complex.abs (∑ k in Finset.range m, Complex.exp ((θ k : ℝ) * Complex.I))
      ≤ (m : ℝ) := by
    calc Complex.abs (∑ k in Finset.range m, Complex.exp ((θ k : ℝ) * Complex.I))
        ≤ ∑ k in Finset.range m, Complex.abs (Complex.exp ((θ k : ℝ) * Complex.I)) :=
          Complex.abs.sum_le _ _
      _ = ∑ _k in Finset.range m, (1 : ℝ) := by
          refine Finset.sum_congr rfl fun k _ => ?_
          exact Complex.abs_exp_ofReal_mul_I (θ k)
      _ = (m : ℝ) := by simp
  have h2 : Complex.abs ((m : ℂ)) = (m : ℝ) := by simp
  rw [h2]
  have hm0 : (0 : ℝ) < (m : ℝ) := by exact_mod_cast hm
  rw [div_le_one hm0]
  exact h1

/-- Claim C8: phase-factor averaging.  get_phase_factor returns, as an (re, im)
    pair, the multiplicity-averaged sum (1/m)·Σ_k exp(i·2π·q·v_k) over the m
    equivalent shortest vectors of the (si, pi0) pair; for m = 1 the magnitude
    of the returned complex number is exactly 1, and for every m ≥ 1 the
    magnitude is at most 1. -/
theorem phase_factor_averaging (q sv : ℕ → ℝ) (d1 d2 : ℕ) (md : ℕ → ℕ)
    (m1 pi0 si qi : ℕ) :
    (⟨(get_phase_factor q sv d1 d2 md m1 pi0 si qi).1,
      (get_phase_factor q sv d1 d2 md m1 pi0 si qi).2⟩ : ℂ) =
      (∑ k in Finset.range (md (si * m1 + pi0)),
        Complex.exp (((M_2PI * ∑ j in Finset.range 3,
          q (qi * 3 + j) * sv (si * d1 * d2 * 3 + pi0 * d2 * 3 + k * 3 + j)) : ℝ) *
          Complex.I)) / ((md (si * m1 + pi0) : ℕ) : ℂ) ∧
    (md (si * m1 + pi0) = 1 →
      Complex.abs (⟨(get_phase_factor q sv d1 d2 md m1 pi0 si qi).1,
        (get_phase_factor q sv d1 d2 md m1 pi0 si qi).2⟩ : ℂ) = 1) ∧
    (1 ≤ md (si * m1 + pi0) →
      Complex.abs (⟨(get_phase_factor q sv d1 d2 md m1 pi0 si qi).1,
        (get_phase_factor q sv d1 d2 md m1 pi0 si qi).2⟩ : ℂ) ≤ 1) := by
  have heq : (⟨(get_phase_factor q sv d1 d2 md m1 pi0 si qi).1,
      (get_phase_factor q sv d1 d2 md m1 pi0 si qi).2⟩ : ℂ) =
      (∑ k in Finset.range (md (si * m1 + pi0)),
        Complex.exp (((M_2PI * ∑ j in Finset.range 3,
          q (qi * 3 + j) * sv (si * d1 * d2 * 3 + pi0 * d2 * 3 + k * 3 + j)) : ℝ) *
          Complex.I)) / ((md (si * m1 + pi0) : ℕ) : ℂ) :=
    avg_trig_eq_avg_exp
      (fun k => M_2PI * ∑ j in Finset.range 3,
        q (qi * 3 + j) * sv (si * d1 * d2 * 3 + pi0 * d2 * 3 + k * 3 + j))
      (md (si * m1 + pi0))
  refine ⟨heq, ?_, ?_⟩
  · intro h1
    rw [heq, h1, Finset.sum_range_one, Nat.cast_one, div_one]
    exact Complex.abs_exp_ofReal_mul_I _
  · intro hm
    rw [heq]
    exact avg_exp_abs_le_one _ _ hm

/-- Claim C8 witness: with all-zero wavevector, all-zero shortest vectors and
    multiplicity 1, the returned phase factor has magnitude exactly 1. -/
theorem phase_factor_averaging_witness :
    Complex.abs (⟨(get_phase_factor (fun _ => 0) (fun _ => 0) 1 1 (fun _ => 1) 1 0 0 0).1,
      (get_phase_factor (fun _ => 0) (fun _ => 0) 1 1 (fun _ => 1) 1 0 0 0).2⟩ : ℂ) = 1 :=
  (phase_factor_averaging (fun _ => 0) (fun _ => 0) 1 1 (fun _ => 1) 1 0 0 0).2.1 rfl

/- ------------------------------------------------------------------ -/
/- Claim C4                                                            -/
/- ------------------------------------------------------------------ -/

theorem charge_sum_opt_none_iff (b : ℕ → ℝ) (q dielectric rl : ℕ → ℝ)
    (qdir : Option (ℕ → ℝ)) (nac : ℝ) (np ns : ℕ) :
    charge_sum_opt (some b) q dielectric rl qdir nac np ns = none ↔
      (|q 0| < 1e-10 ∧ |q 1| < 1e-10 ∧ |q 2| < 1e-10) ∧ qdir = none := by
  simp only [charge_sum_opt]
  split_ifs with h
  · simp only [Option.isNone_iff_eq_none] at h
    exact iff_of_true rfl h
  · simp only [Option.isNone_iff_eq_none] at h
    exact iff_of_false (by simp) h

/-- Claim C4: NAC applicability rule.  The charge-sum tensor is built and
    passed to the dynamical-matrix builder if and only if Born charges are
    supplied AND (some component of q is at least 1e-10 in magnitude OR a
    limiting direction is supplied); when Born charges are absent, or when
    every component of q is within 1e-10 of zero and no limiting direction is
    given, no tensor is built (NULL is passed, contributing nothing). -/
theorem nac_applicability_iff (born : Option (ℕ → ℝ)) (q dielectric rl : ℕ → ℝ)
    (qdir : Option (ℕ → ℝ)) (nac : ℝ) (np ns : ℕ) :
    (charge_sum_opt born q dielectric rl qdir nac np ns ≠ none ↔
      born ≠ none ∧
        ((1e-10 ≤ |q 0| ∨ 1e-10 ≤ |q 1| ∨ 1e-10 ≤ |q 2|) ∨ qdir ≠ none)) ∧
    (born = none → charge_sum_opt born q dielectric rl qdir nac np ns = none) ∧
    ((|q 0| < 1e-10 ∧ |q 1| < 1e-10 ∧ |q 2| < 1e-10) ∧ qdir = none →
      charge_sum_opt born q dielectric rl qdir nac np ns = none) := by
  cases born with
  | none =>
    refine ⟨?_, fun _ => rfl, fun _ => rfl⟩
    simp [charge_sum_opt]
  | some b =>
    refine ⟨?_, fun hc => Option.noConfusion hc,
      fun h => (charge_sum_opt_none_iff b q dielectric rl qdir nac np ns).mpr h⟩
    rw [Ne, charge_sum_opt_none_iff, not_and_or, not_and_or, not_and_or,
      not_lt, not_lt, not_lt]
    constructor
    · intro h
      refine ⟨by simp, ?_⟩
      rcases h with (h | h) | h
      · exact Or.inl (Or.inl h)
      · rcases h with h | h
        · exact Or.inl (Or.inr (Or.inl h))
        · exact Or.inl (Or.inr (Or.inr h))
      · exact Or.inr h
    · rintro ⟨-, h⟩
      rcases h with (h | h | h) | h
      · exact Or.inl (Or.inl h)
      · exact Or.inl (Or.inr (Or.inl h))
      · exact Or.inl (Or.inr (Or.inr h))
      · exact Or.inr h

/-- Claim C4 witness: with Born charges absent the charge-sum argument is NULL,
    and with Born charges present and q = (1,0,0) it is non-NULL. -/
theorem nac_applicability_iff_witness :
    charge_sum_opt none qx rl_id rl_id none 1 1 1 = none ∧
    charge_sum_opt (some born0) qx rl_id rl_id none 1 1 1 ≠ none :=
  ⟨(nac_applicability_iff none qx rl_id rl_id none 1 1 1).2.1 rfl,
   (nac_applicability_iff (some born0) qx rl_id rl_id none 1 1 1).1.mpr
     ⟨Option.some_ne_none _, Or.inl (Or.inl (by norm_num [qx]))⟩⟩

/- ------------------------------------------------------------------ -/
/- Claim C6                                                            -/
/- ------------------------------------------------------------------ -/

/-- Claim C6: NAC scaling formula.  Whenever the correction applies the tensor
    passed to the builder is the charge sum built from q_cart (Cartesian image
    of the limiting direction when supplied, of q otherwise, via the
    reciprocal lattice) scaled by nac_factor / inv_dielectric_factor /
    num_satom * num_patom; q_cart[i] = Σ_j rl[i,j]·v[j]; the scalar
    inv_dielectric_factor equals q_cartᵀ·dielectric·q_cart; and the code's
    factor equals nac_factor / inv_dielectric_factor / N with
    N = num_satom / num_patom. -/
theorem nac_scaling_formula (b : ℕ → ℝ) (q dielectric rl : ℕ → ℝ)
    (qdir : Option (ℕ → ℝ)) (nac : ℝ) (np ns : ℕ)
    (happ : ¬((|q 0| < 1e-10 ∧ |q 1| < 1e-10 ∧ |q 2| < 1e-10) ∧ qdir = none)) :
    charge_sum_opt (some b) q dielectric rl qdir nac np ns =
      some (get_charge_sum np
        (nac / inv_dielectric_factor_of dielectric (q_cart_of rl (qdir.getD q)) /
          (ns : ℝ) * (np : ℝ))
        (q_cart_of rl (qdir.getD q)) b) ∧
    (∀ i, q_cart_of rl (qdir.getD q) i =
      ∑ j in Finset.range 3, rl (i * 3 + j) * (qdir.getD q) j) ∧
    (inv_dielectric_factor_of dielectric (q_cart_of rl (qdir.getD q)) =
      ∑ i in Finset.range 3, ∑ j in Finset.range 3,
        q_cart_of rl (qdir.getD q) i * dielectric (i * 3 + j) *
          q_cart_of rl (qdir.getD q) j) ∧
    (nac / inv_dielectric_factor_of dielectric (q_cart_of rl (qdir.getD q)) /
        (ns : ℝ) * (np : ℝ) =
      nac / inv_dielectric_factor_of dielectric (q_cart_of rl (qdir.getD q)) /
        ((ns : ℝ) / (np : ℝ))) := by
  refine ⟨?_, fun i => rfl, ?_, ?_⟩
  · simp only [charge_sum_opt]
    rw [if_neg]
    intro hcontra
    exact happ ⟨hcontra.1, Option.isNone_iff_eq_none.mp hcontra.2⟩
  · unfold inv_dielectric_factor_of
    refine Finset.sum_congr rfl fun i _ => ?_
    rw [Finset.sum_mul]
    refine Finset.sum_congr rfl fun j _ => ?_
    ring
  · simp only [div_eq_mul_inv, mul_inv_rev, inv_inv]
    ring

/-- Claim C6 witness: concrete instantiation with q = (1,0,0), identity
    reciprocal lattice and dielectric tensor, confirming the tensor is built
    with the scaled factor. -/
theorem nac_scaling_formula_witness :
    charge_sum_opt (some born0) qx rl_id rl_id none 1 1 1 =
      some (get_charge_sum 1
        (1 / inv_dielectric_factor_of rl_id
            (q_cart_of rl_id ((none : Option (ℕ → ℝ)).getD qx)) /
          ((1 : ℕ) : ℝ) * ((1 : ℕ) : ℝ))
        (q_cart_of rl_id ((none : Option (ℕ → ℝ)).getD qx)) born0) :=
  (nac_scaling_formula born0 qx rl_id rl_id none 1 1 1
    (fun h => absurd h.1.1 (by norm_num [qx]))).1

/- ------------------------------------------------------------------ -/
/- Claim C7                                                            -/
/- ------------------------------------------------------------------ -/

/-- Claim C7 counterexample: with Born charges supplied, q = (1,0,0), identity
    reciprocal lattice and the all-zero dielectric tensor, the computed
    inv_dielectric_factor is exactly zero, yet get_phonons does not fail: the
    charge-sum tensor is still built from the divided-by-zero factor and the
    returned status is solely the eigensolver's (0 for a converging solver).
    There is no degeneracy check and no error path in the code. -/
theorem nac_degeneracy_no_error_counterexample :
    inv_dielectric_factor_of (fun _ => 0) (q_cart_of rl_id qx) = 0 ∧
    charge_sum_opt (some born0) qx (fun _ => 0) rl_id none 1 1 1 =
      some (get_charge_sum 1 ((1 : ℝ) / 0 / 1 * 1) (q_cart_of rl_id qx) born0) ∧
    (get_phonons zheev_ok dynmat0 qx (some born0) (fun _ => 0) rl_id none 1 1 1 1).2.2
      = 0 := by
  have h0 : inv_dielectric_factor_of (fun _ => 0) (q_cart_of rl_id qx) = 0 := by
    simp [inv_dielectric_factor_of]
  refine ⟨h0, ?_, rfl⟩
  simp only [charge_sum_opt]
  rw [if_neg]
  · rw [Option.getD_none, h0]
    norm_num
  · intro hcontra
    have := hcontra.1.1
    norm_num [qx] at this

/-- Claim C7 amended: for every input where Born charges are supplied, the NAC
    branch is taken and inv_dielectric_factor is zero, no error is raised:
    the division is performed anyway (in the real-number model division by
    zero, in IEEE arithmetic an infinite or NaN factor), the charge-sum tensor
    is built from the resulting factor and passed on, and get_phonons returns
    normally with only the eigensolver's status. -/
theorem nac_degeneracy_division_proceeds (b : ℕ → ℝ) (q dielectric rl : ℕ → ℝ)
    (qdir : Option (ℕ → ℝ)) (nac : ℝ) (np ns : ℕ)
    (happ : ¬((|q 0| < 1e-10 ∧ |q 1| < 1e-10 ∧ |q 2| < 1e-10) ∧ qdir = none))
    (hdeg : inv_dielectric_factor_of dielectric (q_cart_of rl (qdir.getD q)) = 0) :
    charge_sum_opt (some b) q dielectric rl qdir nac np ns =
      some (get_charge_sum np (nac / 0 / (ns : ℝ) * (np : ℝ))
        (q_cart_of rl (qdir.getD q)) b) ∧
    (∀ dynmat ucf,
      (get_phonons zheev_ok dynmat q (some b) dielectric rl qdir nac ucf np ns).2.2
        = 0) := by
  constructor
  · simp only [charge_sum_opt]
    rw [if_neg]
    · rw [hdeg]
    · intro hcontra
      exact happ ⟨hcontra.1, Option.isNone_iff_eq_none.mp hcontra.2⟩
  · intro dynmat ucf
    rfl

/-- Claim C7 amended witness: concrete degenerate input (zero dielectric
    tensor, q = (1,0,0), nac_factor 2) at which the charge sum is still built. -/
theorem nac_degeneracy_division_proceeds_witness :
    charge_sum_opt (some born0) qx (fun _ => 0) rl_id none 2 1 1 =
      some (get_charge_sum 1 ((2 : ℝ) / 0 / ((1 : ℕ) : ℝ) * ((1 : ℕ) : ℝ))
        (q_cart_of rl_id ((none : Option (ℕ → ℝ)).getD qx)) born0) :=
  (nac_degeneracy_division_proceeds born0 qx (fun _ => 0) rl_id none 2 1 1
    (fun h => absurd h.1.1 (by norm_num [qx]))
    (by simp [inv_dielectric_factor_of])).1

/- ------------------------------------------------------------------ -/
/- Scheduler helper lemmas                                             -/
/- ------------------------------------------------------------------ -/

theorem collect_mem_iff (gps : List ℕ) : ∀ (done : ℕ → Bool) (gp : ℕ),
    gp ∈ (collect_undone_grid_points done gps).1 ↔ gp ∈ gps ∧ done gp = false := by
  induction gps with
  | nil => intro done gp; simp [collect_undone_grid_points]
  | cons g rest ih =>
    intro done gp
    simp only [collect_undone_grid_points]
    by_cases hg : done g = true
    · rw [if_pos hg, ih]
      simp only [List.mem_cons]
      constructor
      · rintro ⟨hmem, hnd⟩
        exact ⟨Or.inr hmem, hnd⟩
      · rintro ⟨hmem, hnd⟩
        rcases hmem with h | h
        · subst h; rw [hg] at hnd; cases hnd
        · exact ⟨h, hnd⟩
    · rw [if_neg hg]
      show gp ∈ g :: (collect_undone_grid_points (Function.update done g true) rest).1 ↔ _
      have hgf : done g = false := by simpa using hg
      simp only [List.mem_cons]
      rw [ih, Function.update_apply]
      by_cases hgp : gp = g
      · subst hgp
        simp [hgf]
      · simp only [if_neg hgp]
        tauto

theorem collect_nodup (gps : List ℕ) : ∀ done : ℕ → Bool,
    (collect_undone_grid_points done gps).1.Nodup := by
  induction gps with
  | nil => intro done; simp [collect_undone_grid_points]
  | cons g rest ih =>
    intro done
    simp only [collect_undone_grid_points]
    by_cases hg : done g = true
    · rw [if_pos hg]; exact ih done
    · rw [if_neg hg]
      show (g :: (collect_undone_grid_points (Function.update done g true) rest).1).Nodup
      rw [List.nodup_cons]
      refine ⟨?_, ih _⟩
      intro hmem
      have h2 := ((collect_mem_iff rest _ g).mp hmem).2
      rw [Function.update_same] at h2
      cases h2

theorem collect_done_iff (gps : List ℕ) : ∀ (done : ℕ → Bool) (gp : ℕ),
    (collect_undone_grid_points done gps).2 gp = true ↔
      done gp = true ∨ gp ∈ gps := by
  induction gps with
  | nil => intro done gp; simp [collect_undone_grid_points]
  | cons g rest ih =>
    intro done gp
    simp only [collect_undone_grid_points]
    by_cases hg : done g = true
    · rw [if_pos hg, ih]
      simp only [List.mem_cons]
      by_cases hgp : gp = g
      · subst hgp
        simp [hg]
      · tauto
    · rw [if_neg hg]
      show (collect_undone_grid_points (Function.update done g true) rest).2 gp = true ↔ _
      rw [ih]
      rw [Function.update_apply]
      simp only [List.mem_cons]
      by_cases hgp : gp = g
      · subst hgp
        simp
      · simp only [if_neg hgp]
        tauto

theorem collect_all_done (gps : List ℕ) : ∀ done : ℕ → Bool,
    (∀ gp ∈ gps, done gp = true) →
      collect_undone_grid_points done gps = ([], done) := by
  induction gps with
  | nil => intro done _; rfl
  | cons g rest ih =>
    intro done h
    simp only [collect_undone_grid_points]
    rw [if_pos (h g (List.mem_cons_self g rest))]
    exact ih done fun gp hgp => h gp (List.mem_cons_of_mem g hgp)

theorem get_undone_phonons_done (zheev : (ℕ → ℂ) → ℕ → (ℕ → ℝ) × (ℕ → ℂ) × ℤ)
    (dynmat : (ℕ → ℝ) → Option (ℕ → ℕ → ℕ → ℕ → ℝ) → (ℕ → ℝ) × (ℕ → ℝ))
    (inp : PhononInputs) (undone : List ℕ) :
    ∀ st : PhononState,
      (get_undone_phonons zheev dynmat inp undone st).phonon_done = st.phonon_done := by
  induction undone with
  | nil => intro st; rfl
  | cons g rest ih =>
    intro st
    show (get_undone_phonons zheev dynmat inp rest
      (solve_one zheev dynmat inp st g)).phonon_done = _
    rw [ih]
    rfl

theorem set_phonons_done (zheev : (ℕ → ℂ) → ℕ → (ℕ → ℝ) × (ℕ → ℂ) × ℤ)
    (dynmat : (ℕ → ℝ) → Option (ℕ → ℕ → ℕ → ℕ → ℝ) → (ℕ → ℝ) × (ℕ → ℝ))
    (inp : PhononInputs) (gps : List ℕ) (st : PhononState) :
    (set_phonons_at_gridpoints zheev dynmat inp gps st).phonon_done =
      (collect_undone_grid_points st.phonon_done gps).2 := by
  show (get_undone_phonons zheev dynmat inp
    (collect_undone_grid_points st.phonon_done gps).1
    { st with phonon_done := (collect_undone_grid_points st.phonon_done gps).2 }).phonon_done = _
  rw [get_undone_phonons_done]

/- ------------------------------------------------------------------ -/
/- Claim C1                                                            -/
/- ------------------------------------------------------------------ -/

/-- Claim C1: caching/idempotence law of the scheduler.  An already-done
    requested point is skipped (never enters the undone list); the undone list
    has no duplicates and contains exactly the requested not-yet-done points,
    so each undone point is solved exactly once even when requested several
    times in one batch; after one batch call every requested point is marked
    done; and re-invoking the batch with the same request list leaves the
    whole cache state (frequencies, eigenvectors, done flags) unchanged. -/
theorem scheduler_dedup_idempotent (zheev : (ℕ → ℂ) → ℕ → (ℕ → ℝ) × (ℕ → ℂ) × ℤ)
    (dynmat : (ℕ → ℝ) → Option (ℕ → ℕ → ℕ → ℕ → ℝ) → (ℕ → ℝ) × (ℕ → ℝ))
    (inp : PhononInputs) (st : PhononState) (gps : List ℕ) :
    (∀ gp ∈ gps, st.phonon_done gp = true →
      gp ∉ (collect_undone_grid_points st.phonon_done gps).1) ∧
    (collect_undone_grid_points st.phonon_done gps).1.Nodup ∧
    (∀ gp, gp ∈ (collect_undone_grid_points st.phonon_done gps).1 ↔
      gp ∈ gps ∧ st.phonon_done gp = false) ∧
    (∀ gp ∈ gps,
      (set_phonons_at_gridpoints zheev dynmat inp gps st).phonon_done gp = true) ∧
    set_phonons_at_gridpoints zheev dynmat inp gps
        (set_phonons_at_gridpoints zheev dynmat inp gps st) =
      set_phonons_at_gridpoints zheev dynmat inp gps st := by
  refine ⟨?_, collect_nodup gps st.phonon_done,
    fun gp => collect_mem_iff gps st.phonon_done gp, ?_, ?_⟩
  · intro gp _ hdone hmem
    have h := ((collect_mem_iff gps st.phonon_done gp).mp hmem).2
    rw [hdone] at h
    cases h
  · intro gp hgp
    rw [set_phonons_done, collect_done_iff]
    exact Or.inr hgp
  · have hdone : ∀ gp ∈ gps,
        (set_phonons_at_gridpoints zheev dynmat inp gps st).phonon_done gp = true := by
      intro gp hgp
      rw [set_phonons_done, collect_done_iff]
      exact Or.inr hgp
    show get_undone_phonons zheev dynmat inp
      (collect_undone_grid_points
        (set_phonons_at_gridpoints zheev dynmat inp gps st).phonon_done gps).1
      { set_phonons_at_gridpoints zheev dynmat inp gps st with
        phonon_done := (collect_undone_grid_points
          (set_phonons_at_gridpoints zheev dynmat inp gps st).phonon_done gps).2 } =
      set_phonons_at_gridpoints zheev dynmat inp gps st
    rw [collect_all_done gps _ hdone]
    rfl

/-- Claim C1 witness: the batch [5, 5, 7] on an all-undone cache yields the
    undone list [5, 7] — the per-point solve is invoked once for 5 and once
    for 7 — and that list has no duplicates. -/
theorem scheduler_dedup_idempotent_witness :
    (collect_undone_grid_points st0.phonon_done [5, 5, 7]).1 = [5, 7] ∧
    (collect_undone_grid_points st0.phonon_done [5, 5, 7]).1.Nodup :=
  ⟨by decide,
   (scheduler_dedup_idempotent zheev_ok dynmat0 inp0 st0 [5, 5, 7]).2.1⟩

/- ------------------------------------------------------------------ -/
/- Claim C5                                                            -/
/- ------------------------------------------------------------------ -/

theorem solve_one_qdir_irrelevant (zheev : (ℕ → ℂ) → ℕ → (ℕ → ℝ) × (ℕ → ℂ) × ℤ)
    (dynmat : (ℕ → ℝ) → Option (ℕ → ℕ → ℕ → ℕ → ℝ) → (ℕ → ℝ) × (ℕ → ℝ))
    (inp : PhononInputs) (st : PhononState) (gp : ℕ) (h : gp ≠ 0) :
    solve_one zheev dynmat inp st gp =
      solve_one zheev dynmat { inp with q_direction := none } st gp := by
  simp only [solve_one, if_neg h]

/-- Claim C5: limiting-direction threading.  The per-point loop body passes the
    caller's q_direction to get_phonons exactly when the grid point is 0 and
    NULL for every other grid point; each grid point's q is derived
    component-wise as grid_address[gp*3+j] / mesh[j]; for a grid point other
    than 0 the result is unchanged if the limiting direction is dropped, and a
    whole batch containing no grid point 0 never uses the limiting direction. -/
theorem limiting_direction_threading
    (zheev : (ℕ → ℂ) → ℕ → (ℕ → ℝ) × (ℕ → ℂ) × ℤ)
    (dynmat : (ℕ → ℝ) → Option (ℕ → ℕ → ℕ → ℕ → ℝ) → (ℕ → ℝ) × (ℕ → ℝ))
    (inp : PhononInputs) (st : PhononState) (gp : ℕ) (undone : List ℕ) :
    (solve_one zheev dynmat inp st gp =
      write_slot st gp inp.num_band (inp.num_patom * 3)
        (get_phonons zheev dynmat
          (fun j => ((inp.grid_address (gp * 3 + j) : ℝ)) / ((inp.mesh j : ℝ)))
          inp.born inp.dielectric inp.reciprocal_lattice
          (if gp = 0 then inp.q_direction else none)
          inp.nac_factor inp.unit_conversion_factor inp.num_patom inp.num_satom).2.1
        (get_phonons zheev dynmat
          (fun j => ((inp.grid_address (gp * 3 + j) : ℝ)) / ((inp.mesh j : ℝ)))
          inp.born inp.dielectric inp.reciprocal_lattice
          (if gp = 0 then inp.q_direction else none)
          inp.nac_factor inp.unit_conversion_factor inp.num_patom inp.num_satom).1) ∧
    (gp ≠ 0 → solve_one zheev dynmat inp st gp =
      solve_one zheev dynmat { inp with q_direction := none } st gp) ∧
    (0 ∉ undone → get_undone_phonons zheev dynmat inp undone st =
      get_undone_phonons zheev dynmat { inp with q_direction := none } undone st) := by
  refine ⟨?_, solve_one_qdir_irrelevant zheev dynmat inp st gp, ?_⟩
  · by_cases h : gp = 0
    · simp only [solve_one, if_pos h]
    · simp only [solve_one, if_neg h]
  · intro h0
    induction undone generalizing st with
    | nil => rfl
    | cons g rest ih =>
      have hg : g ≠ 0 := fun hcontra => h0 (by rw [hcontra]; exact List.mem_cons_self 0 rest)
      have hrest : 0 ∉ rest := fun hmem => h0 (List.mem_cons_of_mem g hmem)
      show get_undone_phonons zheev dynmat inp rest (solve_one zheev dynmat inp st g) =
        get_undone_phonons zheev dynmat { inp with q_direction := none } rest
          (solve_one zheev dynmat { inp with q_direction := none } st g)
      rw [← solve_one_qdir_irrelevant zheev dynmat inp st g hg]
      exact ih _ hrest

/-- Claim C5 witness: for grid point 7 the solve is literally the solve with
    the limiting direction dropped, applied at a concrete state and inputs. -/
theorem limiting_direction_threading_witness :
    solve_one zheev_ok dynmat0 inp0 st0 7 =
      solve_one zheev_ok dynmat0 { inp0 with q_direction := none } st0 7 :=
  (limiting_direction_threading zheev_ok dynmat0 inp0 st0 7 []).2.1 (by decide)

/- ------------------------------------------------------------------ -/
/- Claim C9                                                            -/
/- ------------------------------------------------------------------ -/

theorem get_phonons_buffers_eq (z1 z2 : (ℕ → ℂ) → ℕ → (ℕ → ℝ) × (ℕ → ℂ) × ℤ)
    (hz : ∀ a n, (z1 a n).1 = (z2 a n).1 ∧ (z1 a n).2.1 = (z2 a n).2.1)
    (dynmat : (ℕ → ℝ) → Option (ℕ → ℕ → ℕ → ℕ → ℝ) → (ℕ → ℝ) × (ℕ → ℝ))
    (q : ℕ → ℝ) (born : Option (ℕ → ℝ)) (dielectric rl : ℕ → ℝ)
    (qdir : Option (ℕ → ℝ)) (nac ucf : ℝ) (np ns : ℕ) :
    (get_phonons z1 dynmat q born dielectric rl qdir nac ucf np ns).1 =
      (get_phonons z2 dynmat q born dielectric rl qdir nac ucf np ns).1 ∧
    (get_phonons z1 dynmat q born dielectric rl qdir nac ucf np ns).2.1 =
      (get_phonons z2 dynmat q born dielectric rl qdir nac ucf np ns).2.1 := by
  constructor
  · simp only [get_phonons]
    exact (hz _ _).2
  · simp only [get_phonons]
    rw [(hz _ _).1]

theorem solve_one_status_independent (z1 z2 : (ℕ → ℂ) → ℕ → (ℕ → ℝ) × (ℕ → ℂ) × ℤ)
    (hz : ∀ a n, (z1 a n).1 = (z2 a n).1 ∧ (z1 a n).2.1 = (z2 a n).2.1)
    (dynmat : (ℕ → ℝ) → Option (ℕ → ℕ → ℕ → ℕ → ℝ) → (ℕ → ℝ) × (ℕ → ℝ))
    (inp : PhononInputs) (st : PhononState) (gp : ℕ) :
    solve_one z1 dynmat inp st gp = solve_one z2 dynmat inp st gp := by
  simp only [solve_one]
  by_cases h : gp = 0
  · simp only [if_pos h]
    rw [(get_phonons_buffers_eq z1 z2 hz dynmat _ _ _ _ _ _ _ _ _).1,
        (get_phonons_buffers_eq z1 z2 hz dynmat _ _ _ _ _ _ _ _ _).2]
  · simp only [if_neg h]
    rw [(get_phonons_buffers_eq z1 z2 hz dynmat _ _ _ _ _ _ _ _ _).1,
        (get_phonons_buffers_eq z1 z2 hz dynmat _ _ _ _ _ _ _ _ _).2]

theorem batch_status_independent (z1 z2 : (ℕ → ℂ) → ℕ → (ℕ → ℝ) × (ℕ → ℂ) × ℤ)
    (hz : ∀ a n, (z1 a n).1 = (z2 a n).1 ∧ (z1 a n).2.1 = (z2 a n).2.1)
    (dynmat : (ℕ → ℝ) → Option (ℕ → ℕ → ℕ → ℕ → ℝ) → (ℕ → ℝ) × (ℕ → ℝ))
    (inp : PhononInputs) (gps : List ℕ) (st : PhononState) :
    set_phonons_at_gridpoints z1 dynmat inp gps st =
      set_phonons_at_gridpoints z2 dynmat inp gps st := by
  have hfold : ∀ (l : List ℕ) (s : PhononState),
      get_undone_phonons z1 dynmat inp l s = get_undone_phonons z2 dynmat inp l s := by
    intro l
    induction l with
    | nil => intro s; rfl
    | cons g rest ih =>
      intro s
      show get_undone_phonons z1 dynmat inp rest (solve_one z1 dynmat inp s g) =
        get_undone_phonons z2 dynmat inp rest (solve_one z2 dynmat inp s g)
      rw [solve_one_status_independent z1 z2 hz dynmat inp s g]
      exact ih _
  exact hfold _ _

/-- Claim C9 counterexample: a concrete eigensolver oracle that reports
    non-convergence (status 1) at every grid point produces exactly the same
    batch result as a converging one (status 0) with identical buffers: the
    batch entry point's outcome carries no trace of the per-point failure, so
    the failure is not surfaced to the batch caller. -/
theorem diag_failure_swallowed_counterexample :
    (∀ (a : ℕ → ℂ) (n : ℕ), (zheev_fail a n).2.2 = 1) ∧
    (∀ (a : ℕ → ℂ) (n : ℕ), (zheev_ok a n).2.2 = 0) ∧
    set_phonons_at_gridpoints zheev_fail dynmat0 inp0 [0, 5] st0 =
      set_phonons_at_gridpoints zheev_ok dynmat0 inp0 [0, 5] st0 :=
  ⟨fun _ _ => rfl, fun _ _ => rfl,
   batch_status_independent zheev_fail zheev_ok (fun _ _ => ⟨rfl, rfl⟩)
     dynmat0 inp0 [0, 5] st0⟩

/-- Claim C9 amended: get_phonons does return the eigensolver's status code to
    its immediate caller, but the batch entry point discards it — the batch
    result depends only on the eigensolver's value and eigenvector buffers,
    never on its status component — so a per-point diagonalization failure is
    not surfaced to the batch caller; sibling grid points are nevertheless
    computed exactly as they would be under a converging solver. -/
theorem diag_failure_status_discarded
    (z1 z2 : (ℕ → ℂ) → ℕ → (ℕ → ℝ) × (ℕ → ℂ) × ℤ)
    (dynmat : (ℕ → ℝ) → Option (ℕ → ℕ → ℕ → ℕ → ℝ) → (ℕ → ℝ) × (ℕ → ℝ))
    (inp : PhononInputs) (gps : List ℕ) (st : PhononState)
    (hz : ∀ a n, (z1 a n).1 = (z2 a n).1 ∧ (z1 a n).2.1 = (z2 a n).2.1) :
    (∀ (q : ℕ → ℝ) (born : Option (ℕ → ℝ)) (dielectric rl : ℕ → ℝ)
        (qdir : Option (ℕ → ℝ)) (nac ucf : ℝ) (np ns : ℕ),
      (get_phonons z1 dynmat q born dielectric rl qdir nac ucf np ns).2.2 =
        (z1 (fun k => hermitized
            (dynmat q (charge_sum_opt born q dielectric rl qdir nac np ns)).1
            (dynmat q (charge_sum_opt born q dielectric rl qdir nac np ns)).2
            (np * 3) (k / (np * 3)) (k % (np * 3))) (np * 3)).2.2) ∧
    set_phonons_at_gridpoints z1 dynmat inp gps st =
      set_phonons_at_gridpoints z2 dynmat inp gps st :=
  ⟨fun _ _ _ _ _ _ _ _ _ => rfl,
   batch_status_independent z1 z2 hz dynmat inp gps st⟩

/-- Claim C9 amended witness: instantiation at the concrete failing and
    succeeding oracles on the single-point batch [0]. -/
theorem diag_failure_status_discarded_witness :
    set_phonons_at_gridpoints zheev_fail dynmat0 inp0 [0] st0 =
      set_phonons_at_gridpoints zheev_ok dynmat0 inp0 [0] st0 :=
  (diag_failure_status_discarded zheev_fail zheev_ok dynmat0 inp0 [0] st0
    (fun _ _ => ⟨rfl, rfl⟩)).2

/- ------------------------------------------------------------------ -/
/- Claim C10                                                           -/
/- ------------------------------------------------------------------ -/

theorem write_slot_freq_outside (st : PhononState) (gp nb n : ℕ)
    (w : ℕ → ℝ) (a : ℕ → ℂ) (k : ℕ) (hk : ¬(gp * nb ≤ k ∧ k < gp * nb + n)) :
    (write_slot st gp nb n w a).frequencies k = st.frequencies k := by
  simp only [write_slot]
  rw [if_neg hk]

theorem write_slot_eig_outside (st : PhononState) (gp nb n : ℕ)
    (w : ℕ → ℝ) (a : ℕ → ℂ) (k : ℕ)
    (hk : ¬(gp * (nb * nb) ≤ k ∧ k < gp * (nb * nb) + n * n)) :
    (write_slot st gp nb n w a).eigenvectors k = st.eigenvectors k := by
  simp only [write_slot]
  rw [if_neg hk]

theorem slot_disjoint (gp g' nb n k : ℕ) (hn : n ≤ nb) (hgp : gp ≠ g')
    (hk1 : gp * nb ≤ k) (hk2 : k < gp * nb + nb) :
    ¬(g' * nb ≤ k ∧ k < g' * nb + n) := by
  rintro ⟨h1, h2⟩
  rcases Nat.lt_or_ge gp g' with h | h
  · have hstep : (gp + 1) * nb ≤ g' * nb :=
      Nat.mul_le_mul_right nb (Nat.succ_le_of_lt h)
    rw [Nat.succ_mul] at hstep
    have : k < k := lt_of_lt_of_le hk2 (le_trans hstep h1)
    exact absurd this (lt_irrefl k)
  · have hlt : g' < gp := lt_of_le_of_ne h (Ne.symm hgp)
    have hstep : (g' + 1) * nb ≤ gp * nb :=
      Nat.mul_le_mul_right nb (Nat.succ_le_of_lt hlt)
    rw [Nat.succ_mul] at hstep
    have hx : g' * nb + n ≤ gp * nb := le_trans (Nat.add_le_add_left hn _) hstep
    have : k < k := lt_of_lt_of_le h2 (le_trans hx hk1)
    exact absurd this (lt_irrefl k)

theorem get_undone_freq_untouched
    (zheev : (ℕ → ℂ) → ℕ → (ℕ → ℝ) × (ℕ → ℂ) × ℤ)
    (dynmat : (ℕ → ℝ) → Option (ℕ → ℕ → ℕ → ℕ → ℝ) → (ℕ → ℝ) × (ℕ → ℝ))
    (inp : PhononInputs) (undone : List ℕ) :
    ∀ (st : PhononState) (k : ℕ),
      (∀ g' ∈ undone,
        ¬(g' * inp.num_band ≤ k ∧ k < g' * inp.num_band + inp.num_patom * 3)) →
      (get_undone_phonons zheev dynmat inp undone st).frequencies k =
        st.frequencies k := by
  induction undone with
  | nil => intro st k _; rfl
  | cons g rest ih =>
    intro st k h
    show (get_undone_phonons zheev dynmat inp rest
      (solve_one zheev dynmat inp st g)).frequencies k = _
    rw [ih _ k (fun g' hg' => h g' (List.mem_cons_of_mem g hg'))]
    simp only [solve_one]
    exact write_slot_freq_outside st g inp.num_band (inp.num_patom * 3) _ _ k
      (h g (List.mem_cons_self g rest))

theorem get_undone_eig_untouched
    (zheev : (ℕ → ℂ) → ℕ → (ℕ → ℝ) × (ℕ → ℂ) × ℤ)
    (dynmat : (ℕ → ℝ) → Option (ℕ → ℕ → ℕ → ℕ → ℝ) → (ℕ → ℝ) × (ℕ → ℝ))
    (inp : PhononInputs) (undone : List ℕ) :
    ∀ (st : PhononState) (k : ℕ),
      (∀ g' ∈ undone,
        ¬(g' * (inp.num_band * inp.num_band) ≤ k ∧
          k < g' * (inp.num_band * inp.num_band) +
            (inp.num_patom * 3) * (inp.num_patom * 3))) →
      (get_undone_phonons zheev dynmat inp undone st).eigenvectors k =
        st.eigenvectors k := by
  induction undone with
  | nil => intro st k _; rfl
  | cons g rest ih =>
    intro st k h
    show (get_undone_phonons zheev dynmat inp rest
      (solve_one zheev dynmat inp st g)).eigenvectors k = _
    rw [ih _ k (fun g' hg' => h g' (List.mem_cons_of_mem g hg'))]
    simp only [solve_one]
    exact write_slot_eig_outside st g inp.num_band (inp.num_patom * 3) _ _ k
      (h g (List.mem_cons_self g rest))

/-- Claim C10 (implicit): no atomicity on diagonalization failure.  The
    frequency conversion is applied to whatever values the eigensolver left in
    the eigenvalue buffer regardless of its status (the conversion formula is
    the same for every solver, converging or not); after a batch call every
    requested grid point is flagged done even under a failing solver, because
    the marking pass runs before any solve; and once a grid point is flagged
    done, no later batch call touches its frequency or eigenvector slot again
    — a failed grid point is permanently treated as computed. -/
theorem failed_point_treated_done
    (zheev : (ℕ → ℂ) → ℕ → (ℕ → ℝ) × (ℕ → ℂ) × ℤ)
    (dynmat : (ℕ → ℝ) → Option (ℕ → ℕ → ℕ → ℕ → ℝ) → (ℕ → ℝ) × (ℕ → ℝ))
    (inp : PhononInputs) (st : PhononState) (gps : List ℕ) (gp : ℕ)
    (hgp : gp ∈ gps) :
    (∀ (z : (ℕ → ℂ) → ℕ → (ℕ → ℝ) × (ℕ → ℂ) × ℤ)
        (dm : (ℕ → ℝ) → Option (ℕ → ℕ → ℕ → ℕ → ℝ) → (ℕ → ℝ) × (ℕ → ℝ))
        (q : ℕ → ℝ) (born : Option (ℕ → ℝ)) (dielectric rl : ℕ → ℝ)
        (qdir : Option (ℕ → ℝ)) (nac ucf : ℝ) (np ns i : ℕ), i < np * 3 →
      (get_phonons z dm q born dielectric rl qdir nac ucf np ns).2.1 i =
        freq_conversion ucf
          ((z (fun k => hermitized
              (dm q (charge_sum_opt born q dielectric rl qdir nac np ns)).1
              (dm q (charge_sum_opt born q dielectric rl qdir nac np ns)).2
              (np * 3) (k / (np * 3)) (k % (np * 3))) (np * 3)).1 i)) ∧
    (set_phonons_at_gridpoints zheev dynmat inp gps st).phonon_done gp = true ∧
    (st.phonon_done gp = true → inp.num_patom * 3 ≤ inp.num_band →
      ∀ (gps2 : List ℕ) (k : ℕ), gp * inp.num_band ≤ k →
        k < gp * inp.num_band + inp.num_band →
        (set_phonons_at_gridpoints zheev dynmat inp gps2 st).frequencies k =
          st.frequencies k) ∧
    (st.phonon_done gp = true → inp.num_patom * 3 ≤ inp.num_band →
      ∀ (gps2 : List ℕ) (k : ℕ), gp * (inp.num_band * inp.num_band) ≤ k →
        k < gp * (inp.num_band * inp.num_band) + inp.num_band * inp.num_band →
        (set_phonons_at_gridpoints zheev dynmat inp gps2 st).eigenvectors k =
          st.eigenvectors k) := by
  refine ⟨?_, ?_, ?_, ?_⟩
  · intro z dm q born dielectric rl qdir nac ucf np ns i hi
    simp only [get_phonons]
    rw [if_pos hi]
  · rw [set_phonons_done, collect_done_iff]
    exact Or.inr hgp
  · intro hdone hn gps2 k hk1 hk2
    show (get_undone_phonons zheev dynmat inp
      (collect_undone_grid_points st.phonon_done gps2).1
      { st with phonon_done :=
          (collect_undone_grid_points st.phonon_done gps2).2 }).frequencies k =
      st.frequencies k
    rw [get_undone_freq_untouched]
    intro g' hg'
    have hmem := (collect_mem_iff gps2 st.phonon_done g').mp hg'
    have hne : gp ≠ g' := by
      intro hcontra
      rw [← hcontra] at hmem
      rw [hdone] at hmem
      cases hmem.2
    exact slot_disjoint gp g' inp.num_band (inp.num_patom * 3) k hn hne hk1 hk2
  · intro hdone hn gps2 k hk1 hk2
    show (get_undone_phonons zheev dynmat inp
      (collect_undone_grid_points st.phonon_done gps2).1
      { st with phonon_done :=
          (collect_undone_grid_points st.phonon_done gps2).2 }).eigenvectors k =
      st.eigenvectors k
    rw [get_undone_eig_untouched]
    intro g' hg'
    have hmem := (collect_mem_iff gps2 st.phonon_done g').mp hg'
    have hne : gp ≠ g' := by
      intro hcontra
      rw [← hcontra] at hmem
      rw [hdone] at hmem
      cases hmem.2
    exact slot_disjoint gp g' (inp.num_band * inp.num_band)
      ((inp.num_patom * 3) * (inp.num_patom * 3)) k
      (Nat.mul_le_mul hn hn) hne hk1 hk2

/-- Claim C10 witness: under the concrete failing eigensolver, requesting grid
    point 5 still flags it done. -/
theorem failed_point_treated_done_witness :
    (set_phonons_at_gridpoints zheev_fail dynmat0 inp0 [5] st0).phonon_done 5 = true :=
  (failed_point_treated_done zheev_fail dynmat0 inp0 st0 [5] 5
    (List.mem_singleton.mpr rfl)).2.1
